import Mathlib

/-!
Shallow embedding of the GitHub reference resolution and branch-checkout
logic of `cli/flow/main.go` (command `flow gitCheckout`): the functions
`runGitCheckout`, `parseGitHubTreeURL`, `pickBranchCandidateForRemote`,
`gitRemoteHasBranch`, `listGitRemotes`, `selectGitRemote`, `gitRefExists`.

External collaborators (the `git` binary, `net/url.Parse`) are modelled as
capabilities supplied in a `GitEnv` record; the string manipulation that the
Go code performs itself (`strings.Split`, `strings.Trim`, `strings.Join`,
`strings.EqualFold`, `url.PathUnescape`, slicing at the first `/`) is
translated into executable Lean functions over `List Char` so that every
definition evaluates by kernel reduction.  Remote interactions are recorded
in an explicit `Effect` trace.
-/

/-- Decidable equality for `Except`, so that concrete runs of the embedded
functions can be checked by `decide`. -/
instance {ε α : Type} [DecidableEq ε] [DecidableEq α] : DecidableEq (Except ε α) := fun x y =>
  match x, y with
  | .error e, .error f =>
    if h : e = f then .isTrue (congrArg Except.error h)
    else .isFalse fun hh => h (Except.error.inj hh)
  | .ok a, .ok b =>
    if h : a = b then .isTrue (congrArg Except.ok h)
    else .isFalse fun hh => h (Except.ok.inj hh)
  | .error _, .ok _ => .isFalse fun hh => Except.noConfusion hh
  | .ok _, .error _ => .isFalse fun hh => Except.noConfusion hh

/-- Error kinds distinguished by the checkout logic, one constructor per
distinct `fmt.Errorf` site that the claims talk about. -/
inductive Err where
  | emptyBranchName
  | notGitRepo
  | invalidURL
  | unsupportedHost
  | unsupportedPath
  | branchNameMissing
  | noBranchCandidates
  | noCandidatesSupplied
  | noRemotesConfigured
  | remoteNotFound
  | branchNotFound
  | lsRemoteFailed
  | fetchFailed
  | checkoutFailed
  deriving DecidableEq

/-- A remote interaction or working-tree mutation performed by the command:
`git ls-remote --heads` probes, `git fetch`, and `git checkout` invocations. -/
inductive Effect where
  | probe (remote branch : String)
  | fetch (remote branch : String)
  | checkout (args : List String)
  deriving DecidableEq

/-- The final checkout decision: plain checkout of an existing local branch,
or creation of a new local branch tracking a remote ref. -/
inductive Outcome where
  | switchLocal (branch : String)
  | createFromRemote (branch remoteRef : String)
  deriving DecidableEq

/-- ASCII whitespace recognized when modelling Go `strings.TrimSpace`. -/
def isSpaceGo (c : Char) : Bool :=
  c == ' ' || c == '\t' || c == '\n' || c == '\r' ||
    c == Char.ofNat 11 || c == Char.ofNat 12

/-- Go `strings.TrimSpace` (restricted to ASCII whitespace). -/
def trimSpace (s : String) : String :=
  ⟨((s.data.dropWhile isSpaceGo).reverse.dropWhile isSpaceGo).reverse⟩

/-- Go `strings.Trim(s, "/")`: drop leading and trailing slashes. -/
def trimSlashes (s : String) : String :=
  ⟨((s.data.dropWhile (· == '/')).reverse.dropWhile (· == '/')).reverse⟩

/-- Splitting a character list at a separator character; the accumulator holds
the current field reversed.  `charSplitAux sep [] acc` closes the last field,
so splitting the empty string yields `[""]`, as Go `strings.Split` does. -/
def charSplitAux (sep : Char) : List Char → List Char → List (List Char)
  | [], acc => [acc.reverse]
  | c :: cs, acc =>
    if c == sep then acc.reverse :: charSplitAux sep cs []
    else charSplitAux sep cs (c :: acc)

/-- Go `strings.Split(s, sep)` for a one-character separator. -/
def splitChar (s : String) (sep : Char) : List String :=
  (charSplitAux sep s.data []).map fun l => ⟨l⟩

/-- Go `strings.Join(elems, "/")`. -/
def joinSlash (elems : List String) : String :=
  ⟨List.intercalate ['/'] (elems.map String.data)⟩

/-- Go `strings.EqualFold` (restricted to ASCII case folding; the code only
compares against the literal `"tree"`). -/
def equalFold (s t : String) : Bool :=
  s.data.map Char.toLower == t.data.map Char.toLower

/-- Go `strings.ToLower` (restricted to ASCII case folding). -/
def lowerStr (s : String) : String :=
  ⟨s.data.map Char.toLower⟩

/-- Go `strings.HasPrefix`. -/
def hasPrefixStr (s p : String) : Bool :=
  p.data.isPrefixOf s.data

/-- One hexadecimal digit, as in Go `net/url`'s `unhex`. -/
def unhexDigit (c : Char) : Option Nat :=
  if '0' ≤ c ∧ c ≤ '9' then some (c.toNat - '0'.toNat)
  else if 'a' ≤ c ∧ c ≤ 'f' then some (c.toNat - 'a'.toNat + 10)
  else if 'A' ≤ c ∧ c ≤ 'F' then some (c.toNat - 'A'.toNat + 10)
  else none

/-- Go `url.PathUnescape` on a character list: a `%` must be followed by two
hexadecimal digits and decodes to the corresponding byte; any other character
passes through; a malformed escape fails the whole decode. -/
def pathUnescapeChars : List Char → Option (List Char)
  | [] => some []
  | '%' :: a :: b :: rest => do
    let ha ← unhexDigit a
    let hb ← unhexDigit b
    let tail ← pathUnescapeChars rest
    pure (Char.ofNat (16 * ha + hb) :: tail)
  | '%' :: _ => none
  | c :: rest => do
    let tail ← pathUnescapeChars rest
    pure (c :: tail)

/-- Go `url.PathUnescape` on strings. -/
def pathUnescape (s : String) : Option String :=
  (pathUnescapeChars s.data).map fun l => ⟨l⟩

/-- The relevant components of a parsed URL, as `net/url.Parse` produces
them: the host, the escaped path (`u.EscapedPath()`), and the value of the
`ref` query parameter as returned by `u.Query().Get("ref")` (empty string
when the parameter is absent).  `url.Parse` itself is an external library
call; it is represented by an `Option GoURL` (with `none` for a parse
error) supplied by the environment.  Not every `GoURL` value is realizable:
`net/url.Parse` rejects a path with a malformed percent escape, so the
`escapedPath` of a parsed URL always satisfies `wellFormedPath` (proved
below for the `goURLParse` model of the parser), while `refQuery` may carry
malformed escapes, because double-encoded `ref` values survive the query
layer's single decode. -/
structure GoURL where
  host : String
  escapedPath : String
  refQuery : String
  deriving DecidableEq

/-- The prefix joins tried as branch names: for branch path segments
`bp = [s1, ..., sn]` the strings `s1`, `s1/s2`, ..., `s1/.../sn`. -/
def branchJoins (bp : List String) : List String :=
  (List.range bp.length).map fun i => joinSlash (bp.take (i + 1))

/-- The `addCandidate` closure of `parseGitHubTreeURL`: empty strings and
strings already collected are skipped, everything else is appended. -/
def addCandidates (acc : List String) : List String → List String
  | [] => acc
  | c :: cs =>
    if c = "" ∨ c ∈ acc then addCandidates acc cs
    else addCandidates (acc ++ [c]) cs

/-- The raw candidate stream of `parseGitHubTreeURL` before the
`addCandidate` dedup/empty filter: the decoded `ref` query value (when the
parameter is present and decodes), followed by the prefix joins of the path
segments after `tree` that decode cleanly (`url.PathUnescape` failures are
skipped by the `continue` in the loop). -/
def rawCandidates (u : GoURL) : List String :=
  let parts := splitChar (trimSlashes u.escapedPath) '/'
  let bp := parts.drop 3
  let refCands : List String :=
    if u.refQuery = "" then []
    else
      match pathUnescape u.refQuery with
      | some d => [d]
      | none => []
  refCands ++ (branchJoins bp).filterMap pathUnescape

/-- `parseGitHubTreeURL` from `cli/flow/main.go`: validates the host and the
`/<owner>/<repo>/tree/<rest>` path shape, then builds the ordered branch
candidate list.  The `Option GoURL` argument stands for the result of
`url.Parse` (`none` = parse error). -/
def parseGitHubTreeURL (pu : Option GoURL) : Except Err (List String) :=
  match pu with
  | none => .error .invalidURL
  | some u =>
    let host := lowerStr u.host
    if host ≠ "github.com" ∧ host ≠ "www.github.com" then .error .unsupportedHost
    else
      let parts := splitChar (trimSlashes u.escapedPath) '/'
      if parts.length < 4 ∨ equalFold (parts.getD 2 "") "tree" = false then
        .error .unsupportedPath
      else
        let bp := parts.drop 3
        if bp = [] then .error .branchNameMissing
        else
          let candidates := addCandidates [] (rawCandidates u)
          if candidates = [] then .error .noBranchCandidates
          else .ok candidates

/-- `listGitRemotes` from `cli/flow/main.go`, applied to the captured stdout
of `git remote` (an `Except` because the command itself may fail): trim the
output, fail on empty, split into lines, trim each line, keep the non-empty
ones, and fail if nothing remains. -/
def listGitRemotes (out : Except Err String) : Except Err (List String) :=
  match out with
  | .error e => .error e
  | .ok o =>
    let trimmed := trimSpace o
    if trimmed = "" then .error .noRemotesConfigured
    else
      let remotes := ((splitChar trimmed '\n').map trimSpace).filter (fun s => s != "")
      if remotes = [] then .error .noRemotesConfigured
      else .ok remotes

/-- `selectGitRemote` from `cli/flow/main.go`: an empty remote list is an
error; a non-empty `preferred` must be present in the list or the resolution
fails; otherwise the first remote named `origin` wins, and failing that the
first listed remote. -/
def selectGitRemote (remotes : List String) (preferred : String) : Except Err String :=
  if remotes = [] then .error .noRemotesConfigured
  else if preferred ≠ "" then
    if preferred ∈ remotes then .ok preferred
    else .error .remoteNotFound
  else
    match remotes.find? (fun r => r == "origin") with
    | some r => .ok r
    | none => .ok (remotes.headD "")

/-- The probe loop of `pickBranchCandidateForRemote`: try each candidate in
order with `gitRemoteHasBranch`; a probe error aborts, a `true` probe returns
that candidate, and exhaustion returns the fallback (the first candidate of
the original list).  Each probe performed is recorded as an effect. -/
def pickLoop (probe : String → String → Except Err Bool) (remote fallback : String) :
    List String → Except Err String × List Effect
  | [] => (.ok fallback, [])
  | c :: rest =>
    match probe remote c with
    | .error e => (.error e, [.probe remote c])
    | .ok true => (.ok c, [.probe remote c])
    | .ok false =>
      let r := pickLoop probe remote fallback rest
      (r.1, .probe remote c :: r.2)

/-- `pickBranchCandidateForRemote` from `cli/flow/main.go`.  The
`gitRemoteHasBranch` capability (a `git ls-remote --heads` round trip) is
supplied as `probe`. -/
def pickBranchCandidateForRemote (probe : String → String → Except Err Bool)
    (remote : String) (candidates : List String) : Except Err String × List Effect :=
  match candidates with
  | [] => (.error .noCandidatesSupplied, [])
  | c :: rest => pickLoop probe remote c (c :: rest)

/-- Go `idx := strings.Index(input, "/")` followed by the slices
`input[:idx]` and `input[idx+1:]`, guarded by `idx > 0`: `some (head, tail)`
when the first `/` sits at a positive index, `none` when there is no `/` or
it is the leading character. -/
def firstSlashSplit (s : String) : Option (String × String) :=
  match s.data.findIdx? (· == '/') with
  | some idx =>
    if 0 < idx then some (⟨s.data.take idx⟩, ⟨s.data.drop (idx + 1)⟩)
    else none
  | none => none

/-- The external collaborators of `runGitCheckout`, one field per shell-out
or library call: `git rev-parse --is-inside-work-tree`, the stdout of
`git remote`, `url.Parse`, `git ls-remote --heads <remote> <branch>`,
`git fetch <remote> <branch>`, `git rev-parse --verify --quiet <ref>`, and
`git checkout ...`. -/
structure GitEnv where
  insideWorkTree : Except Err Unit
  remoteOut : Except Err String
  parseURL : String → Option GoURL
  remoteHasBranch : String → String → Except Err Bool
  fetchBranch : String → String → Except Err Unit
  refExists : String → Except Err Bool
  checkoutCmd : List String → Except Err Unit

/-- The input-classification block of `runGitCheckout` (the `if/else` that
sets `branchName`, `preferredRemote`, `branchCandidates` and
`branchDerivedFromURL`): URL inputs go through `parseGitHubTreeURL`; other
inputs are single candidates, except that a `remote/rest` shape whose head
matches a configured remote pins that remote and keeps only `rest`. -/
def resolveBranchInput (remotes : List String) (parseURL : String → Option GoURL)
    (branchInput : String) : Except Err (String × String × List String × Bool) :=
  if hasPrefixStr branchInput "http://" || hasPrefixStr branchInput "https://" then
    match parseGitHubTreeURL (parseURL branchInput) with
    | .error e => .error e
    | .ok candidates => .ok (candidates.headD "", "", candidates, true)
  else
    match firstSlashSplit branchInput with
    | some (candidateRemote, remaining) =>
      if remaining ≠ "" ∧ candidateRemote ∈ remotes then
        .ok (remaining, candidateRemote, [remaining], false)
      else .ok (branchInput, "", [branchInput], false)
    | none => .ok (branchInput, "", [branchInput], false)

/-- The tail of `runGitCheckout` after the branch name and remote are fixed:
`git fetch remote branch`, then a local-ref check deciding between a plain
checkout of the existing local branch and the creation of a tracking branch
from `<remote>/<branch>`, failing with `branchNotFound` when neither ref
exists. -/
def checkoutPhase (env : GitEnv) (remote branchName : String) :
    Except Err Outcome × List Effect :=
  match env.fetchBranch remote branchName with
  | .error e => (.error e, [.fetch remote branchName])
  | .ok _ =>
    match env.refExists branchName with
    | .error e => (.error e, [.fetch remote branchName])
    | .ok true =>
      match env.checkoutCmd ["checkout", branchName] with
      | .error e =>
        (.error e, [.fetch remote branchName, .checkout ["checkout", branchName]])
      | .ok _ =>
        (.ok (.switchLocal branchName),
          [.fetch remote branchName, .checkout ["checkout", branchName]])
    | .ok false =>
      let remoteRef := remote ++ "/" ++ branchName
      match env.refExists remoteRef with
      | .error e => (.error e, [.fetch remote branchName])
      | .ok false => (.error .branchNotFound, [.fetch remote branchName])
      | .ok true =>
        match env.checkoutCmd ["checkout", "-b", branchName, remoteRef] with
        | .error e =>
          (.error e,
            [.fetch remote branchName, .checkout ["checkout", "-b", branchName, remoteRef]])
        | .ok _ =>
          (.ok (.createFromRemote branchName remoteRef),
            [.fetch remote branchName, .checkout ["checkout", "-b", branchName, remoteRef]])

/-- `runGitCheckout` from `cli/flow/main.go`, for a single argument `arg`:
trim, reject empty input, require a work tree, list the remotes, classify
the input, reject an empty branch name, select the remote, probe the
candidates when they came from a URL, and materialize the checkout.  The
result pairs the command outcome with the trace of remote interactions. -/
def runGitCheckout (env : GitEnv) (arg : String) : Except Err Outcome × List Effect :=
  let branchInput := trimSpace arg
  if branchInput = "" then (.error .emptyBranchName, [])
  else
    match env.insideWorkTree with
    | .error e => (.error e, [])
    | .ok _ =>
      match listGitRemotes env.remoteOut with
      | .error e => (.error e, [])
      | .ok remotes =>
        match resolveBranchInput remotes env.parseURL branchInput with
        | .error e => (.error e, [])
        | .ok (branchName0, preferredRemote, candidates, fromURL) =>
          if branchName0 = "" then (.error .emptyBranchName, [])
          else
            match selectGitRemote remotes preferredRemote with
            | .error e => (.error e, [])
            | .ok remote =>
              if fromURL = true ∧ candidates ≠ [] then
                match pickBranchCandidateForRemote env.remoteHasBranch remote candidates with
                | (.error e, tr) => (.error e, tr)
                | (.ok selected, tr) =>
                  let r := checkoutPhase env remote selected
                  (r.1, tr ++ r.2)
              else checkoutPhase env remote branchName0

/-- First-occurrence deduplication, written from the spec's words ("order is
preserved; duplicates are dropped by exact string equality, keeping first
occurrence"): `seen` records the strings already emitted. -/
def keepFirstAux (seen : List String) : List String → List String
  | [] => []
  | c :: cs =>
    if c ∈ seen then keepFirstAux seen cs
    else c :: keepFirstAux (seen ++ [c]) cs

/-- First-occurrence deduplication of a whole list (the spec-side description
of the candidate-list dedup, to be compared with `addCandidates`). -/
def dedupKeepFirst (l : List String) : List String :=
  keepFirstAux [] l

/-- A git environment in which every capability succeeds: one configured
remote `origin`, every probe answers `false`, every local ref exists. -/
def plainEnv : GitEnv where
  insideWorkTree := .ok ()
  remoteOut := .ok "origin"
  parseURL := fun _ => none
  remoteHasBranch := fun _ _ => .ok false
  fetchBranch := fun _ _ => .ok ()
  refExists := fun _ => .ok true
  checkoutCmd := fun _ => .ok ()

/-- Environment in which both the local ref `feature/login-fix` and the
remote-tracking ref `origin/feature/login-fix` exist. -/
def bothRefsEnv : GitEnv :=
  { plainEnv with
    refExists := fun r =>
      .ok (decide (r = "feature/login-fix" ∨ r = "origin/feature/login-fix")) }

/-- Environment in which only the remote-tracking ref `origin/newb` exists. -/
def remoteOnlyEnv : GitEnv :=
  { plainEnv with refExists := fun r => .ok (decide (r = "origin/newb")) }

/-- Environment in which no ref exists at all. -/
def noRefsEnv : GitEnv :=
  { plainEnv with refExists := fun _ => .ok false }

/-- Go `url.QueryUnescape` on a character list: like path unescaping, but
`+` additionally decodes to a space. -/
def queryUnescapeChars : List Char → Option (List Char)
  | [] => some []
  | '%' :: a :: b :: rest => do
    let ha ← unhexDigit a
    let hb ← unhexDigit b
    let tail ← queryUnescapeChars rest
    pure (Char.ofNat (16 * ha + hb) :: tail)
  | '%' :: _ => none
  | '+' :: rest => do
    let tail ← queryUnescapeChars rest
    pure (' ' :: tail)
  | c :: rest => do
    let tail ← queryUnescapeChars rest
    pure (c :: tail)

/-- Go `url.QueryUnescape` on strings. -/
def queryUnescape (s : String) : Option String :=
  (queryUnescapeChars s.data).map fun l => ⟨l⟩

/-- One pass of Go `net/url.parseQuery` looking up a single key: each
`key=value` pair is split at the first `=`; pairs with an empty raw key, a
`;` in the raw key, or a key/value that fails query-unescaping are skipped;
the first surviving pair whose decoded key matches wins. -/
def queryGetAux (key : String) : List String → String
  | [] => ""
  | pair :: rest =>
    let kRaw : String := ⟨pair.data.takeWhile (· != '=')⟩
    let vRaw : String := ⟨(pair.data.dropWhile (· != '=')).drop 1⟩
    if kRaw = "" ∨ ';' ∈ kRaw.data then queryGetAux key rest
    else
      match queryUnescape kRaw, queryUnescape vRaw with
      | some k, some v => if k = key then v else queryGetAux key rest
      | _, _ => queryGetAux key rest

/-- Go `u.Query().Get(key)`: `url.Query` swallows `parseQuery` errors, so a
malformed pair is skipped rather than failing the parse, and an absent key
yields the empty string. -/
def queryGet (raw key : String) : String :=
  queryGetAux key (splitChar raw '&')

/-- An escaped path whose percent escapes are all well formed, i.e. on which
`url.PathUnescape` succeeds.  `net/url.Parse` only ever produces such paths:
it rejects a raw URL whose path has a malformed escape, and `EscapedPath()`
re-encodes otherwise. -/
def wellFormedPath (s : String) : Bool :=
  (pathUnescape s).isSome

/-- Modelled from the spec: `url.Parse` (standard library, not part of this
repository).  The spec requires `InvalidURL` when the string is not a
well-formed URL, and Go's `net/url.Parse` in particular fails on a path or
fragment containing a malformed percent escape (`setPath`/`setFragment` call
`unescape`, which rejects `%` not followed by two hex digits), while query
errors are swallowed by `Query()`.  The model covers the inputs
`runGitCheckout` hands to it — `http://`/`https://` URLs whose raw path is
already a valid encoding, for which `EscapedPath()` returns the path as
typed: scheme and fragment are stripped, the host runs to the first `/`,
`?` or `#`, the path to the first `?` or `#`, and the `ref` query parameter
is extracted with one level of query-unescaping. -/
def goURLParse (s : String) : Option GoURL :=
  let afterScheme : Option (List Char) :=
    if hasPrefixStr s "http://" then some (s.data.drop 7)
    else if hasPrefixStr s "https://" then some (s.data.drop 8)
    else none
  match afterScheme with
  | none => none
  | some rest =>
    let hostChars := rest.takeWhile fun c => !(c == '/' || c == '?' || c == '#')
    let afterHost := rest.drop hostChars.length
    let pathChars := afterHost.takeWhile fun c => !(c == '?' || c == '#')
    let afterPath := afterHost.drop pathChars.length
    let queryChars : List Char :=
      match afterPath with
      | '?' :: qs => qs.takeWhile fun c => !(c == '#')
      | _ => []
    let fragChars : List Char := (afterPath.dropWhile fun c => !(c == '#')).drop 1
    if (pathUnescapeChars pathChars).isSome ∧ (pathUnescapeChars fragChars).isSome then
      some ⟨⟨hostChars⟩, ⟨pathChars⟩, queryGet ⟨queryChars⟩ "ref"⟩
    else none

/-- Every string emitted by `keepFirstAux seen` avoids `seen`. -/
theorem keepFirstAux_not_mem_seen :
    ∀ (l seen : List String) (x : String), x ∈ keepFirstAux seen l → x ∉ seen
  | [], _, _, hx => by simp [keepFirstAux] at hx
  | c :: cs, seen, x, hx => by
    by_cases hc : c ∈ seen
    · simp only [keepFirstAux, if_pos hc] at hx
      exact keepFirstAux_not_mem_seen cs seen x hx
    · simp only [keepFirstAux, if_neg hc, List.mem_cons] at hx
      rcases hx with rfl | hx
      · exact hc
      · intro hs
        exact keepFirstAux_not_mem_seen cs (seen ++ [c]) x hx (by simp [hs])

/-- `keepFirstAux` emits no duplicates. -/
theorem keepFirstAux_nodup : ∀ (l seen : List String), (keepFirstAux seen l).Nodup
  | [], _ => by simp [keepFirstAux]
  | c :: cs, seen => by
    by_cases hc : c ∈ seen
    · simpa only [keepFirstAux, if_pos hc] using keepFirstAux_nodup cs seen
    · simp only [keepFirstAux, if_neg hc, List.nodup_cons]
      refine ⟨fun hmem => ?_, keepFirstAux_nodup cs (seen ++ [c])⟩
      exact keepFirstAux_not_mem_seen cs (seen ++ [c]) c hmem (by simp)

/-- `keepFirstAux` preserves order: its output is a sublist of its input. -/
theorem keepFirstAux_sublist : ∀ (l seen : List String), (keepFirstAux seen l).Sublist l
  | [], _ => by simp [keepFirstAux]
  | c :: cs, seen => by
    by_cases hc : c ∈ seen
    · simp only [keepFirstAux, if_pos hc]
      exact (keepFirstAux_sublist cs seen).cons c
    · simp only [keepFirstAux, if_neg hc]
      exact (keepFirstAux_sublist cs (seen ++ [c])).cons₂ c

/-- Every input string not yet seen is emitted by `keepFirstAux`. -/
theorem keepFirstAux_complete :
    ∀ (l seen : List String) (x : String), x ∈ l → x ∉ seen → x ∈ keepFirstAux seen l
  | [], _, _, hx, _ => by simp at hx
  | c :: cs, seen, x, hx, hs => by
    rcases List.mem_cons.mp hx with rfl | hx
    · simp only [keepFirstAux, if_neg hs]
      exact List.mem_cons_self _ _
    · by_cases hc : c ∈ seen
      · simp only [keepFirstAux, if_pos hc]
        exact keepFirstAux_complete cs seen x hx hs
      · simp only [keepFirstAux, if_neg hc, List.mem_cons]
        by_cases hxc : x = c
        · exact Or.inl hxc
        · exact Or.inr (keepFirstAux_complete cs (seen ++ [c]) x hx (by simp [hs, hxc]))

/-- The `addCandidate` fold of `parseGitHubTreeURL` is exactly first-occurrence
deduplication of the stream with empty strings removed. -/
theorem addCandidates_eq :
    ∀ (l acc : List String),
      addCandidates acc l = acc ++ keepFirstAux acc (l.filter fun s => s != "")
  | [], acc => by simp [addCandidates, keepFirstAux]
  | c :: cs, acc => by
    by_cases hce : c = ""
    · subst hce
      simp only [addCandidates, if_pos (Or.inl rfl), List.filter_cons]
      simpa using addCandidates_eq cs acc
    · by_cases hca : c ∈ acc
      · simp only [addCandidates, if_pos (Or.inr hca), List.filter_cons]
        have : (c != "") = true := by simpa using hce
        simp only [this, if_pos rfl, keepFirstAux, if_pos hca]
        exact addCandidates_eq cs acc
      · have hne : ¬(c = "" ∨ c ∈ acc) := by
          rintro (h | h)
          · exact hce h
          · exact hca h
        simp only [addCandidates, if_neg hne, List.filter_cons]
        have : (c != "") = true := by simpa using hce
        simp only [this, if_pos rfl, keepFirstAux, if_neg hca]
        rw [addCandidates_eq cs (acc ++ [c])]
        simp

/-- On a duplicate-free stream of non-empty strings disjoint from the
accumulator, the `addCandidate` fold appends the stream unchanged. -/
theorem addCandidates_id :
    ∀ (l acc : List String), (∀ s ∈ l, s ≠ "" ∧ s ∉ acc) → l.Nodup →
      addCandidates acc l = acc ++ l
  | [], acc, _, _ => by simp [addCandidates]
  | c :: cs, acc, h, hnd => by
    obtain ⟨hce, hca⟩ := h c (List.mem_cons_self _ _)
    have hne : ¬(c = "" ∨ c ∈ acc) := by
      rintro (hh | hh)
      · exact hce hh
      · exact hca hh
    simp only [addCandidates, if_neg hne]
    rw [addCandidates_id cs (acc ++ [c]) ?_ (List.nodup_cons.mp hnd).2]
    · simp
    · intro s hs
      refine ⟨(h s (List.mem_cons_of_mem _ hs)).1, ?_⟩
      simp only [List.mem_append, List.mem_singleton]
      rintro ((hh : s ∈ acc) | rfl)
      · exact (h s (List.mem_cons_of_mem _ hs)).2 hh
      · exact (List.nodup_cons.mp hnd).1 hs

/-- Full description of the probe loop when every probe answers cleanly: the
loop returns the first candidate probing `true` (the fallback when none does)
and probes exactly the candidates up to and including the first success. -/
theorem pickLoop_spec (probe : String → String → Except Err Bool) (remote : String) :
    ∀ (l : List String) (fb : String), (∀ x ∈ l, ∃ b, probe remote x = .ok b) →
      pickLoop probe remote fb l =
        (.ok ((l.find? fun x => decide (probe remote x = .ok true)).getD fb),
          (l.takeWhile fun x => !decide (probe remote x = .ok true)).map (Effect.probe remote) ++
            (match l.find? fun x => decide (probe remote x = .ok true) with
             | some sel => [Effect.probe remote sel]
             | none => []))
  | [], fb, _ => by simp [pickLoop]
  | c :: cs, fb, htot => by
    obtain ⟨b, hb⟩ := htot c (List.mem_cons_self _ _)
    cases b
    · have hrec := pickLoop_spec probe remote cs fb
        (fun x hx => htot x (List.mem_cons_of_mem _ hx))
      simp [pickLoop, hb, List.find?_cons, List.takeWhile_cons, hrec]
    · simp [pickLoop, hb, List.find?_cons, List.takeWhile_cons]

/-- A probe error aborts the loop: candidates before the failing one are
probed (answering `false`), the failing candidate is probed, nothing after it
is touched, and the error is returned regardless of the fallback. -/
theorem pickLoop_err (probe : String → String → Except Err Bool) (remote : String)
    (e : Err) (c : String) (post : List String) :
    ∀ (pre : List String) (fb : String), (∀ x ∈ pre, probe remote x = .ok false) →
      probe remote c = .error e →
      pickLoop probe remote fb (pre ++ c :: post) =
        (.error e, (pre ++ [c]).map (Effect.probe remote))
  | [], fb, _, hc => by simp [pickLoop, hc]
  | p :: pre, fb, hpre, hc => by
    have hp := hpre p (List.mem_cons_self _ _)
    have hrec := pickLoop_err probe remote e c post pre fb
      (fun x hx => hpre x (List.mem_cons_of_mem _ hx)) hc
    simp [pickLoop, hp, hrec]

/-- Under a valid host and a `/<owner>/<repo>/tree/<rest>` path,
`parseGitHubTreeURL` returns the deduplicated candidate stream, or
`noBranchCandidates` when that list is empty. -/
theorem parse_ok_form (u : GoURL)
    (hhost : lowerStr u.host = "github.com" ∨ lowerStr u.host = "www.github.com")
    (hlen : 4 ≤ (splitChar (trimSlashes u.escapedPath) '/').length)
    (htree : equalFold ((splitChar (trimSlashes u.escapedPath) '/').getD 2 "") "tree" = true) :
    parseGitHubTreeURL (some u) =
      if addCandidates [] (rawCandidates u) = [] then .error .noBranchCandidates
      else .ok (addCandidates [] (rawCandidates u)) := by
  have hbp : (splitChar (trimSlashes u.escapedPath) '/').drop 3 ≠ [] := by
    intro h
    have := List.drop_eq_nil_iff.mp h
    omega
  have hhost' : ¬(lowerStr u.host ≠ "github.com" ∧ lowerStr u.host ≠ "www.github.com") := by
    rcases hhost with h | h <;> rw [h] <;> simp
  have hpath' : ¬((splitChar (trimSlashes u.escapedPath) '/').length < 4 ∨
      equalFold ((splitChar (trimSlashes u.escapedPath) '/').getD 2 "") "tree" = false) := by
    rintro (h | h)
    · omega
    · rw [htree] at h
      exact Bool.noConfusion h
  simp only [parseGitHubTreeURL]
  rw [if_neg hhost', if_neg hpath', if_neg hbp]

/-- On a head character other than `%`, path unescaping just passes the
character through. -/
theorem pathUnescapeChars_cons_ne (c : Char) (l : List Char) (hc : c ≠ '%') :
    pathUnescapeChars (c :: l) = (pathUnescapeChars l).map (c :: ·) := by
  rw [pathUnescapeChars.eq_def]
  split
  · rename_i heq; injection heq
  · rename_i heq
    injection heq with h1 h2
    exact absurd h1 fun hh => hc hh
  · rename_i heq
    injection heq with h1 h2
    exact absurd h1 fun hh => hc hh
  · rename_i heq
    injection heq with h1 h2
    subst h1; subst h2
    cases pathUnescapeChars l <;> rfl

/-- A non-`%` head character does not affect decodability. -/
theorem isSome_pathUnescapeChars_cons_ne (c : Char) (l : List Char) (hc : c ≠ '%') :
    (pathUnescapeChars (c :: l)).isSome = (pathUnescapeChars l).isSome := by
  rw [pathUnescapeChars_cons_ne c l hc]
  cases pathUnescapeChars l <;> rfl

/-- Decodability of a `%XY`-headed list reduces to the two hex digits and
the tail. -/
theorem isSome_pathUnescapeChars_pct (a b : Char) (rest : List Char) :
    (pathUnescapeChars ('%' :: a :: b :: rest)).isSome =
      ((unhexDigit a).isSome && (unhexDigit b).isSome && (pathUnescapeChars rest).isSome) := by
  simp only [pathUnescapeChars]
  cases unhexDigit a <;> cases unhexDigit b <;> cases pathUnescapeChars rest <;> rfl

/-- The concatenation of two decodable character lists is decodable. -/
theorem pathUnescapeChars_append (a b : List Char)
    (ha : (pathUnescapeChars a).isSome = true) (hb : (pathUnescapeChars b).isSome = true) :
    (pathUnescapeChars (a ++ b)).isSome = true := by
  induction a using pathUnescapeChars.induct with
  | case1 => simpa using hb
  | case2 x y rest ih =>
    rw [isSome_pathUnescapeChars_pct] at ha
    simp only [List.cons_append]
    rw [isSome_pathUnescapeChars_pct]
    simp only [Bool.and_eq_true] at ha ⊢
    exact ⟨ha.1, ih ha.2⟩
  | case3 tail htail =>
    rcases tail with _ | ⟨x, _ | ⟨y, r⟩⟩
    · simp [pathUnescapeChars] at ha
    · simp [pathUnescapeChars] at ha
    · exact absurd rfl (htail x y r)
  | case4 c rest hshape hc ih =>
    have hcne : c ≠ '%' := fun hh => hc hh
    rw [isSome_pathUnescapeChars_cons_ne c rest hcne] at ha
    simp only [List.cons_append]
    rw [isSome_pathUnescapeChars_cons_ne c (rest ++ b) hcne]
    exact ih ha

/-- Decodability splits at a literal `/`: no percent escape can straddle it,
since a well-formed escape never contains a slash. -/
theorem pathUnescapeChars_split_slash (a b : List Char)
    (h : (pathUnescapeChars (a ++ '/' :: b)).isSome = true) :
    (pathUnescapeChars a).isSome = true ∧ (pathUnescapeChars b).isSome = true := by
  induction a using pathUnescapeChars.induct with
  | case1 =>
    refine ⟨rfl, ?_⟩
    simpa [isSome_pathUnescapeChars_cons_ne '/' b (by decide)] using h
  | case2 x y rest ih =>
    simp only [List.cons_append] at h
    rw [isSome_pathUnescapeChars_pct] at h
    simp only [Bool.and_eq_true] at h
    obtain ⟨hrest, hb⟩ := ih h.2
    refine ⟨?_, hb⟩
    rw [isSome_pathUnescapeChars_pct]
    simp [h.1.1, h.1.2, hrest]
  | case3 tail htail =>
    exfalso
    rcases tail with _ | ⟨x, _ | ⟨y, r⟩⟩
    · rcases b with _ | ⟨c, bs⟩
      · simp [pathUnescapeChars] at h
      · simp only [List.nil_append, List.cons_append] at h
        rw [isSome_pathUnescapeChars_pct] at h
        rw [show unhexDigit '/' = none from rfl] at h
        simp at h
    · simp only [List.cons_append, List.nil_append] at h
      rw [isSome_pathUnescapeChars_pct] at h
      rw [show unhexDigit '/' = none from rfl] at h
      simp at h
    · exact absurd rfl (htail x y r)
  | case4 c rest hshape hc ih =>
    have hcne : c ≠ '%' := fun hh => hc hh
    simp only [List.cons_append] at h
    rw [isSome_pathUnescapeChars_cons_ne c (rest ++ '/' :: b) hcne] at h
    obtain ⟨hrest, hb⟩ := ih h
    exact ⟨by rw [isSome_pathUnescapeChars_cons_ne c rest hcne]; exact hrest, hb⟩

/-- Every field produced by the split of a decodable list at `/` is
decodable (stated with the split's accumulator made explicit). -/
theorem charSplitAux_pieces_wf (l : List Char) :
    ∀ acc : List Char, (pathUnescapeChars (acc.reverse ++ l)).isSome = true →
      ∀ p ∈ charSplitAux '/' l acc, (pathUnescapeChars p).isSome = true := by
  induction l with
  | nil =>
    intro acc h p hp
    simp only [charSplitAux, List.mem_singleton] at hp
    subst hp
    simpa using h
  | cons c cs ih =>
    intro acc h p hp
    by_cases hc : c = '/'
    · subst hc
      simp only [charSplitAux, beq_self_eq_true, if_true] at hp
      obtain ⟨hacc, hcs⟩ := pathUnescapeChars_split_slash acc.reverse cs h
      rcases List.mem_cons.mp hp with rfl | hp'
      · exact hacc
      · exact ih [] (by simpa using hcs) p hp'
    · have hcb : (c == '/') = false := by simpa using hc
      rw [show charSplitAux '/' (c :: cs) acc = charSplitAux '/' cs (c :: acc) from by
        simp [charSplitAux, hcb]] at hp
      refine ih (c :: acc) ?_ p hp
      have hre : (c :: acc).reverse ++ cs = acc.reverse ++ c :: cs := by simp
      rw [hre]
      exact h

/-- Dropping leading slashes preserves decodability. -/
theorem dropLeadingSlashes_wf (l : List Char)
    (h : (pathUnescapeChars l).isSome = true) :
    (pathUnescapeChars (l.dropWhile (· == '/'))).isSome = true := by
  induction l with
  | nil => simpa using h
  | cons c cs ih =>
    by_cases hc : c = '/'
    · subst hc
      simp only [List.dropWhile, beq_self_eq_true]
      exact ih (by rw [← isSome_pathUnescapeChars_cons_ne '/' cs (by decide)]; exact h)
    · have hcb : (c == '/') = false := by simpa using hc
      simpa [List.dropWhile, hcb] using h

/-- Dropping trailing slashes preserves decodability. -/
theorem dropTrailingSlashes_wf (l : List Char)
    (h : (pathUnescapeChars l).isSome = true) :
    (pathUnescapeChars (l.reverse.dropWhile (· == '/')).reverse).isSome = true := by
  have htw : l.reverse.takeWhile (· == '/') =
      List.replicate (l.reverse.takeWhile (· == '/')).length '/' := by
    rw [List.eq_replicate_iff]
    refine ⟨rfl, fun b hb => ?_⟩
    have := List.mem_takeWhile_imp hb
    simpa using this
  have hdecomp : l = (l.reverse.dropWhile (· == '/')).reverse ++
      List.replicate (l.reverse.takeWhile (· == '/')).length '/' := by
    conv_lhs => rw [← List.reverse_reverse l,
      ← List.takeWhile_append_dropWhile (· == '/') l.reverse]
    rw [List.reverse_append, ← List.reverse_replicate, ← htw]
  rw [hdecomp] at h
  rcases hn : (l.reverse.takeWhile (· == '/')).length with _ | n
  · rw [hn, List.replicate_zero, List.append_nil] at h
    exact h
  · rw [hn, List.replicate_succ] at h
    exact (pathUnescapeChars_split_slash _ _ h).1

/-- `strings.Trim(s, "/")` preserves decodability of the path. -/
theorem trimSlashes_wf (s : String)
    (h : (pathUnescape s).isSome = true) :
    (pathUnescape (trimSlashes s)).isSome = true := by
  have h' : (pathUnescapeChars s.data).isSome = true := by
    simpa [pathUnescape] using h
  have := dropTrailingSlashes_wf (s.data.dropWhile (· == '/')) (dropLeadingSlashes_wf s.data h')
  simpa [pathUnescape, trimSlashes] using this

/-- Every segment of a decodable path is decodable. -/
theorem splitChar_pieces_wf (s : String)
    (h : (pathUnescape s).isSome = true) :
    ∀ t ∈ splitChar (trimSlashes s) '/', (pathUnescape t).isSome = true := by
  intro t ht
  simp only [splitChar, List.mem_map] at ht
  obtain ⟨p, hp, rfl⟩ := ht
  have hwf : (pathUnescapeChars (([] : List Char).reverse ++ (trimSlashes s).data)).isSome =
      true := by
    simpa [pathUnescape] using trimSlashes_wf s h
  have := charSplitAux_pieces_wf (trimSlashes s).data [] hwf p hp
  simpa [pathUnescape] using this

/-- The slash-join of decodable segments is decodable. -/
theorem joinSlash_wf (elems : List String)
    (h : ∀ s ∈ elems, (pathUnescape s).isSome = true) :
    (pathUnescape (joinSlash elems)).isSome = true := by
  induction elems with
  | nil => decide
  | cons a rest ih =>
    cases rest with
    | nil =>
      have ha := h a (List.mem_cons_self _ _)
      simpa [joinSlash, pathUnescape, List.intercalate] using ha
    | cons b rest' =>
      have hstep : List.intercalate ['/'] ((a :: b :: rest').map String.data) =
          a.data ++ '/' :: List.intercalate ['/'] ((b :: rest').map String.data) := by
        simp [List.intercalate, List.intersperse_cons_cons]
      have ha : (pathUnescapeChars a.data).isSome = true := by
        simpa [pathUnescape] using h a (List.mem_cons_self _ _)
      have hrest : (pathUnescapeChars
          (List.intercalate ['/'] ((b :: rest').map String.data))).isSome = true := by
        simpa [joinSlash, pathUnescape] using
          ih (fun s hs => h s (List.mem_cons_of_mem _ hs))
      have hslash : (pathUnescapeChars
          ('/' :: List.intercalate ['/'] ((b :: rest').map String.data))).isSome = true := by
        rw [isSome_pathUnescapeChars_cons_ne '/' _ (by decide)]
        exact hrest
      have := pathUnescapeChars_append a.data _ ha hslash
      simpa [joinSlash, pathUnescape, hstep] using this

/-- The modelled `url.Parse` only produces URLs whose escaped path has
well-formed percent escapes (a malformed path escape makes it fail). -/
theorem goURLParse_wf (s : String) (u : GoURL) (h : goURLParse s = some u) :
    wellFormedPath u.escapedPath = true := by
  simp only [goURLParse] at h
  split at h
  · exact Option.noConfusion h
  · split at h
    · rename_i hcond
      have hu := Option.some.inj h
      subst hu
      simpa [wellFormedPath, pathUnescape] using hcond.1
    · exact Option.noConfusion h

/-- For a URL whose escaped path is well formed, every prefix join of the
branch path segments percent-decodes: the decode-failure skip can never fire
for a path candidate. -/
theorem branchJoins_wf (u : GoURL) (hwf : wellFormedPath u.escapedPath = true) :
    ∀ j ∈ branchJoins ((splitChar (trimSlashes u.escapedPath) '/').drop 3),
      pathUnescape j ≠ none := by
  intro j hj
  simp only [branchJoins, List.mem_map, List.mem_range] at hj
  obtain ⟨i, hi, rfl⟩ := hj
  have hpieces := splitChar_pieces_wf u.escapedPath (by simpa [wellFormedPath] using hwf)
  have hjoin := joinSlash_wf (((splitChar (trimSlashes u.escapedPath) '/').drop 3).take (i + 1))
    (fun t ht => hpieces t (List.drop_subset _ _ (List.take_subset _ _ ht)))
  intro hnone
  rw [hnone] at hjoin
  exact Bool.noConfusion hjoin

/-- Claim C5: for input that is empty after trimming, `runGitCheckout` fails
with `emptyBranchName` and the effect trace is empty, so the remote-has-branch
probe and the fetch capability are invoked zero times. -/
theorem runGitCheckout_empty_input (env : GitEnv) (s : String)
    (h : trimSpace s = "") :
    runGitCheckout env s = (.error .emptyBranchName, []) := by
  simp [runGitCheckout, h]

/-- Witness for C5 at the concrete input `"   "`. -/
theorem runGitCheckout_empty_input_witness :
    runGitCheckout plainEnv "   " = (.error .emptyBranchName, []) :=
  runGitCheckout_empty_input plainEnv "   " (by decide)

/-- Claim C6: URL classification fails with `invalidURL` when `url.Parse`
fails, with `unsupportedHost` when the lowered host is neither `github.com`
nor `www.github.com`, and with `unsupportedPath` when the path does not have
at least four segments with the third case-insensitively equal to `tree`;
in particular the path `/acme` fails with `unsupportedPath`. -/
theorem parseGitHubTreeURL_classification :
    parseGitHubTreeURL none = .error .invalidURL ∧
    (∀ u : GoURL, lowerStr u.host ≠ "github.com" → lowerStr u.host ≠ "www.github.com" →
      parseGitHubTreeURL (some u) = .error .unsupportedHost) ∧
    (∀ u : GoURL,
      (lowerStr u.host = "github.com" ∨ lowerStr u.host = "www.github.com") →
      ((splitChar (trimSlashes u.escapedPath) '/').length < 4 ∨
        equalFold ((splitChar (trimSlashes u.escapedPath) '/').getD 2 "") "tree" = false) →
      parseGitHubTreeURL (some u) = .error .unsupportedPath) ∧
    parseGitHubTreeURL (some ⟨"github.com", "/acme", ""⟩) = .error .unsupportedPath := by
  refine ⟨rfl, ?_, ?_, by decide⟩
  · intro u h1 h2
    simp only [parseGitHubTreeURL]
    rw [if_pos ⟨h1, h2⟩]
  · intro u hhost hpath
    have hhost' : ¬(lowerStr u.host ≠ "github.com" ∧ lowerStr u.host ≠ "www.github.com") := by
      rcases hhost with h | h <;> rw [h] <;> simp
    simp only [parseGitHubTreeURL]
    rw [if_neg hhost', if_pos hpath]

/-- Witness for C6 at a concrete non-GitHub host. -/
theorem parseGitHubTreeURL_classification_witness :
    parseGitHubTreeURL (some ⟨"gitlab.com", "/acme/widgets/tree/x", ""⟩) =
      .error .unsupportedHost :=
  parseGitHubTreeURL_classification.2.1 ⟨"gitlab.com", "/acme/widgets/tree/x", ""⟩
    (by decide) (by decide)

/-- Claim C7: with no pinned remote, `selectGitRemote` returns the remote
literally named `origin` when configured, otherwise the first listed remote;
an empty remote list fails with `noRemotesConfigured` (as does
`listGitRemotes` on blank `git remote` output). -/
theorem selectGitRemote_default :
    (∀ remotes : List String, "origin" ∈ remotes →
      selectGitRemote remotes "" = .ok "origin") ∧
    (∀ (r : String) (rest : List String), "origin" ∉ r :: rest →
      selectGitRemote (r :: rest) "" = .ok r) ∧
    (∀ p : String, selectGitRemote [] p = .error .noRemotesConfigured) ∧
    listGitRemotes (.ok "") = .error .noRemotesConfigured := by
  refine ⟨?_, ?_, fun p => rfl, by decide⟩
  · intro remotes h
    have hne : remotes ≠ [] := by
      rintro rfl
      simp at h
    cases hf : remotes.find? fun r => r == "origin" with
    | some r =>
      have hr : r = "origin" := by simpa using List.find?_some hf
      subst hr
      simp [selectGitRemote, if_neg hne, hf]
    | none =>
      exfalso
      exact absurd (by simp : (("origin" : String) == "origin") = true)
        (List.find?_eq_none.mp hf "origin" h)
  · intro r rest h
    have hf : (r :: rest).find? (fun x => x == "origin") = none := by
      rw [List.find?_eq_none]
      intro x hx hxeq
      have hx' : x = "origin" := by simpa using hxeq
      subst hx'
      exact h hx
    simp [selectGitRemote, hf]

/-- Witness for C7: `origin` wins even when listed second; otherwise the
first listed remote is chosen. -/
theorem selectGitRemote_default_witness :
    selectGitRemote ["upstream", "origin"] "" = .ok "origin" ∧
    selectGitRemote ["fork", "upstream"] "" = .ok "fork" :=
  ⟨selectGitRemote_default.1 ["upstream", "origin"] (by decide),
    selectGitRemote_default.2.1 "fork" ["upstream"] (by decide)⟩

/-- Claim C2: when every probe answers cleanly, `pickBranchCandidateForRemote`
probes the candidates sequentially in list order, returns the first candidate
the remote has, and falls back to the first candidate of the list (without
failing) when the remote has none of them. -/
theorem pickBranch_first_existing (probe : String → String → Except Err Bool)
    (remote c : String) (cs : List String)
    (htot : ∀ x ∈ c :: cs, ∃ b, probe remote x = .ok b) :
    pickBranchCandidateForRemote probe remote (c :: cs) =
      (.ok (((c :: cs).find? fun x => decide (probe remote x = .ok true)).getD c),
        ((c :: cs).takeWhile fun x => !decide (probe remote x = .ok true)).map
            (Effect.probe remote) ++
          (match (c :: cs).find? fun x => decide (probe remote x = .ok true) with
           | some sel => [Effect.probe remote sel]
           | none => [])) := by
  simp only [pickBranchCandidateForRemote]
  exact pickLoop_spec probe remote (c :: cs) c htot

/-- Witness for C2: with candidates `["feature", "feature/login-fix"]` and a
remote having only the second, the second is selected after both probes. -/
theorem pickBranch_first_existing_witness :
    pickBranchCandidateForRemote (fun _ x => .ok (decide (x = "feature/login-fix")))
        "origin" ["feature", "feature/login-fix"] =
      (.ok "feature/login-fix",
        [.probe "origin" "feature", .probe "origin" "feature/login-fix"]) := by
  have h := pickBranch_first_existing (fun _ x => .ok (decide (x = "feature/login-fix")))
    "origin" "feature" ["feature/login-fix"] (fun x _ => ⟨_, rfl⟩)
  exact h.trans (by decide)

/-- Claim C10: a transport error from the remote-has-branch probe aborts
candidate selection with that error: the candidates before the failing one
are probed, the failing one is probed, no later candidate is probed, and the
first-candidate fallback is not taken. -/
theorem pickBranch_error_aborts (probe : String → String → Except Err Bool)
    (remote : String) (pre : List String) (c : String) (post : List String) (e : Err)
    (hpre : ∀ x ∈ pre, probe remote x = .ok false)
    (hc : probe remote c = .error e) :
    pickBranchCandidateForRemote probe remote (pre ++ c :: post) =
      (.error e, (pre ++ [c]).map (Effect.probe remote)) := by
  cases pre with
  | nil =>
    simpa [pickBranchCandidateForRemote] using
      pickLoop_err probe remote e c post [] c (by simp) hc
  | cons p pre' =>
    simp only [List.cons_append, pickBranchCandidateForRemote]
    exact pickLoop_err probe remote e c post (p :: pre') p hpre hc

/-- Witness for C10: the probe errors on the second of three candidates; the
third is never probed and the error is returned. -/
theorem pickBranch_error_aborts_witness :
    pickBranchCandidateForRemote
        (fun _ x =>
          if x = "a" then .ok false
          else if x = "b" then .error .lsRemoteFailed
          else .ok true)
        "origin" ["a", "b", "z"] =
      (.error .lsRemoteFailed, [.probe "origin" "a", .probe "origin" "b"]) := by
  have h := pickBranch_error_aborts
    (fun _ x =>
      if x = "a" then .ok false
      else if x = "b" then .error .lsRemoteFailed
      else .ok true)
    "origin" ["a"] "b" ["z"] .lsRemoteFailed (by decide) (by decide)
  exact h.trans (by decide)

/-- Counterexample to claim C1 as stated: with only `origin` configured, the
input `nonexistent/foo` does not fail at all (in particular not with
`remoteNotFound`); the whole string is carried through as the branch name
and checkout proceeds against `origin`. -/
theorem unknownRemoteHead_no_failure :
    runGitCheckout plainEnv "nonexistent/foo" =
      (.ok (.switchLocal "nonexistent/foo"),
        [.fetch "origin" "nonexistent/foo", .checkout ["checkout", "nonexistent/foo"]]) ∧
    (runGitCheckout plainEnv "nonexistent/foo").1 ≠ .error .remoteNotFound :=
  ⟨by decide, by decide⟩

/-- Claim C1 as amended: for a non-URL input of the form `head/rest` whose
head is not a configured remote, resolution does not fail: the whole string
becomes the single branch candidate, no remote is pinned, and the checkout
proceeds against the default-selected remote. -/
theorem unknownRemoteHead_single_candidate (env : GitEnv)
    (input head rest remote : String) (remotes : List String)
    (htrim : trimSpace input = input)
    (hins : env.insideWorkTree = .ok ())
    (hrem : listGitRemotes env.remoteOut = .ok remotes)
    (hu1 : hasPrefixStr input "http://" = false)
    (hu2 : hasPrefixStr input "https://" = false)
    (hsplit : firstSlashSplit input = some (head, rest))
    (hnot : head ∉ remotes)
    (hsel : selectGitRemote remotes "" = .ok remote) :
    runGitCheckout env input = checkoutPhase env remote input := by
  have hne : input ≠ "" := by
    rintro rfl
    rw [show firstSlashSplit "" = none from rfl] at hsplit
    exact Option.noConfusion hsplit
  have hres : resolveBranchInput remotes env.parseURL input =
      .ok (input, "", [input], false) := by
    simp only [resolveBranchInput, hu1, hu2, Bool.or_self, Bool.false_eq_true, if_false,
      hsplit]
    rw [if_neg fun h => hnot h.2]
  simp only [runGitCheckout, htrim, if_neg hne, hins, hrem, hres, hsel]
  rw [if_neg (by rintro ⟨h, -⟩; exact Bool.noConfusion h)]

/-- Witness for the amended C1 at the concrete input `nonexistent/foo`. -/
theorem unknownRemoteHead_single_candidate_witness :
    runGitCheckout plainEnv "nonexistent/foo" =
      checkoutPhase plainEnv "origin" "nonexistent/foo" :=
  unknownRemoteHead_single_candidate plainEnv "nonexistent/foo" "nonexistent" "foo"
    "origin" ["origin"] (by decide) rfl (by decide) (by decide) (by decide)
    (by decide) (by decide) (by decide)

/-- Claim C4: after a successful fetch, an existing local ref with the chosen
branch name forces switch-existing-local mode (no hypothesis on the
remote-tracking ref); create-from-remote happens only when the local ref is
absent and the remote-tracking ref `<remote>/<branch>` exists; when neither
exists the checkout fails with `branchNotFound`. -/
theorem checkoutPhase_modes (env : GitEnv) (remote b : String)
    (hfetch : env.fetchBranch remote b = .ok ()) :
    (env.refExists b = .ok true → env.checkoutCmd ["checkout", b] = .ok () →
      (checkoutPhase env remote b).1 = .ok (.switchLocal b)) ∧
    (env.refExists b = .ok false → env.refExists (remote ++ "/" ++ b) = .ok true →
      env.checkoutCmd ["checkout", "-b", b, remote ++ "/" ++ b] = .ok () →
      (checkoutPhase env remote b).1 = .ok (.createFromRemote b (remote ++ "/" ++ b))) ∧
    (env.refExists b = .ok false → env.refExists (remote ++ "/" ++ b) = .ok false →
      (checkoutPhase env remote b).1 = .error .branchNotFound) := by
  refine ⟨?_, ?_, ?_⟩ <;> intros <;> simp [checkoutPhase, hfetch, *]

/-- Witness for C4: all three modes at concrete environments; in the first
conjunct both the local and the remote-tracking ref exist, and
switch-existing-local still wins. -/
theorem checkoutPhase_modes_witness :
    (checkoutPhase bothRefsEnv "origin" "feature/login-fix").1 =
        .ok (.switchLocal "feature/login-fix") ∧
    (checkoutPhase remoteOnlyEnv "origin" "newb").1 =
        .ok (.createFromRemote "newb" "origin/newb") ∧
    (checkoutPhase noRefsEnv "origin" "gone").1 = .error .branchNotFound :=
  ⟨(checkoutPhase_modes bothRefsEnv "origin" "feature/login-fix" rfl).1
      (by decide) (by decide),
    (checkoutPhase_modes remoteOnlyEnv "origin" "newb" rfl).2.1
      (by decide) (by decide) (by decide),
    (checkoutPhase_modes noRefsEnv "origin" "gone" rfl).2.2
      (by decide) (by decide)⟩

/-- Claim C3: under a valid host and `tree` path, when the prefix joins all
decode to distinct non-empty strings, the candidate list is exactly those
decoded joins in increasing-prefix order, and a present `ref` query parameter
contributes its decoded value as the first candidate. -/
theorem parse_candidates_ref_first (u : GoURL) (parts dec : List String)
    (hparts : splitChar (trimSlashes u.escapedPath) '/' = parts)
    (hhost : lowerStr u.host = "github.com" ∨ lowerStr u.host = "www.github.com")
    (hlen : 4 ≤ parts.length)
    (htree : equalFold (parts.getD 2 "") "tree" = true)
    (hdec : (branchJoins (parts.drop 3)).filterMap pathUnescape = dec)
    (hne : ∀ s ∈ dec, s ≠ "") (hnd : dec.Nodup) :
    (u.refQuery = "" → dec ≠ [] → parseGitHubTreeURL (some u) = .ok dec) ∧
    (∀ r, u.refQuery ≠ "" → pathUnescape u.refQuery = some r → r ≠ "" → r ∉ dec →
      parseGitHubTreeURL (some u) = .ok (r :: dec)) := by
  subst hparts
  constructor
  · intro href hdne
    have hraw : rawCandidates u = dec := by
      simp [rawCandidates, href, hdec]
    have hid : addCandidates [] (rawCandidates u) = dec := by
      rw [hraw, addCandidates_id dec [] (fun s hs => ⟨hne s hs, List.not_mem_nil s⟩) hnd]
      exact List.nil_append dec
    rw [parse_ok_form u hhost hlen htree, hid, if_neg hdne]
  · intro r hrq hdecode hrne hrnot
    have hraw : rawCandidates u = r :: dec := by
      simp [rawCandidates, hrq, hdecode, hdec]
    have hall : ∀ s ∈ r :: dec, s ≠ "" ∧ s ∉ ([] : List String) := by
      intro s hs
      rcases List.mem_cons.mp hs with rfl | hs
      · exact ⟨hrne, List.not_mem_nil s⟩
      · exact ⟨hne s hs, List.not_mem_nil s⟩
    have hid : addCandidates [] (rawCandidates u) = r :: dec := by
      rw [hraw, addCandidates_id (r :: dec) [] hall (List.nodup_cons.mpr ⟨hrnot, hnd⟩)]
      exact List.nil_append (r :: dec)
    rw [parse_ok_form u hhost hlen htree, hid, if_neg (List.cons_ne_nil r dec)]

/-- Witness for C3: the two example URLs of the claim. -/
theorem parse_candidates_ref_first_witness :
    parseGitHubTreeURL (some ⟨"github.com", "/acme/widgets/tree/feature/login-fix", ""⟩) =
      .ok ["feature", "feature/login-fix"] ∧
    parseGitHubTreeURL (some ⟨"github.com", "/acme/widgets/tree/main", "release/9.0"⟩) =
      .ok ["release/9.0", "main"] := by
  constructor
  · exact (parse_candidates_ref_first
      ⟨"github.com", "/acme/widgets/tree/feature/login-fix", ""⟩
      ["acme", "widgets", "tree", "feature", "login-fix"] ["feature", "feature/login-fix"]
      (by decide) (by decide) (by decide) (by decide) (by decide) (by decide)
      (by decide)).1 rfl (by decide)
  · exact (parse_candidates_ref_first
      ⟨"github.com", "/acme/widgets/tree/main", "release/9.0"⟩
      ["acme", "widgets", "tree", "main"] ["main"]
      (by decide) (by decide) (by decide) (by decide) (by decide) (by decide)
      (by decide)).2 "release/9.0" (by decide) (by decide) (by decide) (by decide)

/-- Counterexample to claim C8 as stated: at the raw program input
`https://github.com/acme/widgets/tree/a%zz/b`, whose segment `a%zz` has a
malformed percent escape, `url.Parse` itself fails, so resolution fails with
`invalidURL` before any candidate is built — the segment is not skipped, and
no candidate from the later segment `b` is produced. -/
theorem parse_badPathEscape_invalidURL :
    goURLParse "https://github.com/acme/widgets/tree/a%zz/b" = none ∧
    parseGitHubTreeURL (goURLParse "https://github.com/acme/widgets/tree/a%zz/b") =
      .error .invalidURL :=
  ⟨by decide, by decide⟩

/-- Claim C8 as amended: a percent-decoding failure on a path segment cannot
occur during candidate building — a malformed path escape is fatal at
`url.Parse` (InvalidURL), every URL that parses has a well-formed escaped
path, and every prefix join of such a path percent-decodes, so no path
candidate is ever skipped.  The only reachable decode-failure skip is the
`ref` query value (reachable via a double-encoded `ref`): a `ref` that fails
to decode is dropped without failing the resolution, and the candidates
built from the path segments are still produced. -/
theorem parse_escape_failure_behavior :
    (∀ (s : String) (u : GoURL), goURLParse s = some u →
      wellFormedPath u.escapedPath = true) ∧
    (∀ u : GoURL, wellFormedPath u.escapedPath = true →
      ∀ j ∈ branchJoins ((splitChar (trimSlashes u.escapedPath) '/').drop 3),
        pathUnescape j ≠ none) ∧
    (∀ (u : GoURL) (parts dec : List String),
      splitChar (trimSlashes u.escapedPath) '/' = parts →
      (lowerStr u.host = "github.com" ∨ lowerStr u.host = "www.github.com") →
      4 ≤ parts.length →
      equalFold (parts.getD 2 "") "tree" = true →
      pathUnescape u.refQuery = none →
      (branchJoins (parts.drop 3)).filterMap pathUnescape = dec →
      (∀ s ∈ dec, s ≠ "") → dec.Nodup → dec ≠ [] →
      parseGitHubTreeURL (some u) = .ok dec) := by
  refine ⟨goURLParse_wf, branchJoins_wf, ?_⟩
  intro u parts dec hparts hhost hlen htree hrefbad hdec hne hnd hdne
  subst hparts
  have hraw : rawCandidates u = dec := by
    simp [rawCandidates, hrefbad, hdec]
  have hid : addCandidates [] (rawCandidates u) = dec := by
    rw [hraw, addCandidates_id dec [] (fun s hs => ⟨hne s hs, List.not_mem_nil s⟩) hnd]
    exact List.nil_append dec
  rw [parse_ok_form u hhost hlen htree, hid, if_neg hdne]

/-- Witness for the amended C8 at the raw input
`https://github.com/acme/widgets/tree/feature/login-fix?ref=a%25zz`: the
parse succeeds with a well-formed path, its joins decode (shown for
`feature/login-fix`), the double-encoded `ref` value `a%zz` fails to decode
and is skipped, and the path candidates are still produced. -/
theorem parse_escape_failure_behavior_witness :
    wellFormedPath
        (GoURL.escapedPath ⟨"github.com", "/acme/widgets/tree/feature/login-fix", "a%zz"⟩) =
      true ∧
    pathUnescape "feature/login-fix" ≠ none ∧
    parseGitHubTreeURL (some ⟨"github.com", "/acme/widgets/tree/feature/login-fix", "a%zz"⟩) =
      .ok ["feature", "feature/login-fix"] := by
  refine ⟨?_, ?_, ?_⟩
  · exact parse_escape_failure_behavior.1
      "https://github.com/acme/widgets/tree/feature/login-fix?ref=a%25zz"
      ⟨"github.com", "/acme/widgets/tree/feature/login-fix", "a%zz"⟩ (by decide)
  · exact parse_escape_failure_behavior.2.1
      ⟨"github.com", "/acme/widgets/tree/feature/login-fix", "a%zz"⟩ (by decide)
      "feature/login-fix" (by decide)
  · exact parse_escape_failure_behavior.2.2
      ⟨"github.com", "/acme/widgets/tree/feature/login-fix", "a%zz"⟩
      ["acme", "widgets", "tree", "feature", "login-fix"] ["feature", "feature/login-fix"]
      (by decide) (by decide) (by decide) (by decide) (by decide) (by decide)
      (by decide) (by decide) (by decide)

/-- Claim C9: every candidate list accepted from a URL is non-empty, contains
only non-empty strings, has no duplicates, and equals the first-occurrence
deduplication (order preserved) of the raw candidate stream with empty
strings removed; when that deduplicated list is empty, resolution fails with
`noBranchCandidates`. -/
theorem parse_candidate_invariants :
    (∀ (u : GoURL) (l : List String), parseGitHubTreeURL (some u) = .ok l →
      l ≠ [] ∧ (∀ s ∈ l, s ≠ "") ∧ l.Nodup ∧
      l = dedupKeepFirst ((rawCandidates u).filter fun s => s != "")) ∧
    (∀ u : GoURL,
      (lowerStr u.host = "github.com" ∨ lowerStr u.host = "www.github.com") →
      4 ≤ (splitChar (trimSlashes u.escapedPath) '/').length →
      equalFold ((splitChar (trimSlashes u.escapedPath) '/').getD 2 "") "tree" = true →
      dedupKeepFirst ((rawCandidates u).filter fun s => s != "") = [] →
      parseGitHubTreeURL (some u) = .error .noBranchCandidates) := by
  have hdk : ∀ u : GoURL, addCandidates [] (rawCandidates u) =
      dedupKeepFirst ((rawCandidates u).filter fun s => s != "") := by
    intro u
    rw [addCandidates_eq]
    simp [dedupKeepFirst]
  constructor
  · intro u l h
    simp only [parseGitHubTreeURL] at h
    split at h
    · exact absurd h (fun hh => Except.noConfusion hh)
    · split at h
      · exact absurd h (fun hh => Except.noConfusion hh)
      · split at h
        · exact absurd h (fun hh => Except.noConfusion hh)
        · split at h
          · exact absurd h (fun hh => Except.noConfusion hh)
          · rename_i hcand
            have hl : l = addCandidates [] (rawCandidates u) := (Except.ok.inj h).symm
            subst hl
            refine ⟨hcand, ?_, ?_, hdk u⟩
            · intro s hs
              rw [hdk u] at hs
              simp only [dedupKeepFirst] at hs
              have hmem := (keepFirstAux_sublist _ []).subset hs
              have := (List.mem_filter.mp hmem).2
              simpa using this
            · rw [hdk u]
              simp only [dedupKeepFirst]
              exact keepFirstAux_nodup _ _
  · intro u hhost hlen htree hempty
    rw [parse_ok_form u hhost hlen htree, hdk u, hempty]
    rfl

/-- Witness for C9 at a concrete accepted URL. -/
theorem parse_candidate_invariants_witness :
    (["feature", "feature/login-fix"] : List String) ≠ [] ∧
    (["feature", "feature/login-fix"] : List String).Nodup ∧
    ["feature", "feature/login-fix"] =
      dedupKeepFirst
        ((rawCandidates ⟨"github.com", "/acme/widgets/tree/feature/login-fix", ""⟩).filter
          fun s => s != "") := by
  have h := parse_candidate_invariants.1
    ⟨"github.com", "/acme/widgets/tree/feature/login-fix", ""⟩
    ["feature", "feature/login-fix"] (by decide)
  exact ⟨h.1, h.2.2.1, h.2.2.2⟩
